import Mathlib

/-!
Verification of `etc/process_benchmarks.py` (repository `orientations`).

The script aggregates Criterion benchmark result files into a markdown
report.  We shallowly embed its three components:

* Discovery (`benchmark_files`): a walk over a directory tree, yielding a
  `(benchmark.json, estimates.json)` path pair for every directory whose
  base name is `new`.
* Extraction (`main` loop body and `parse_contents`): reading `group_id`
  and `function_id` from the metadata record and
  `Slope.point_estimate` from the estimates record, computing
  `Throughput = 1000 / Runtime`, and inserting into a two-level table
  with dict semantics (last write wins).
* Rendering (`print_benchmarks`): sorting the table by group then
  function, escaping underscores, formatting the two numbers `%6.1f`,
  and emitting the fixed markdown template.

Python floats are modelled as rationals (`ℚ`); exceptions as an
`Except` error type.  Python `dict`s are modelled as insertion-ordered
association lists.  `sorted` is a stable sort and is modelled by
`List.insertionSort` (any two stable sorts agree on every input).
-/

namespace ProcessBenchmarks

/-- Values produced by `json.loads`: null, booleans, numbers (modelled as
rationals), strings, arrays and objects (insertion-ordered key/value
lists). -/
inductive Json where
  | null : Json
  | bool : Bool → Json
  | num : ℚ → Json
  | str : String → Json
  | arr : List Json → Json
  | obj : List (String × Json) → Json

/-- Errors that abort the run, mirroring Python exceptions:
`keyError k` for a `d[k]` lookup on a record without key `k`,
`zeroDivisionError` for `1000. / 0`, and `typeError` for an operation
applied to a value of the wrong type. -/
inductive PyError where
  | keyError : String → PyError
  | zeroDivisionError : PyError
  | typeError : PyError
deriving DecidableEq

/-- Dictionary lookup `j[k]` restricted to objects; `none` both when the
key is absent (Python `KeyError`) and when `j` is not an object (Python
`TypeError`) — every claim treats both as the aborting missing-field
path. -/
def jGet (j : Json) (k : String) : Option Json :=
  match j with
  | .obj fields => fields.lookup k
  | _ => none

/-- Python truthiness of a JSON-decoded value, as used by
`meta.get('function_id', None) or group`: `None`, `False`, `0`, `""`,
`[]` and `{}` (the braces denoting the empty dict) are falsy. -/
def truthy : Json → Bool
  | .null => false
  | .bool b => b
  | .num q => decide (q ≠ 0)
  | .str s => decide (s ≠ "")
  | .arr xs => !xs.isEmpty
  | .obj fields => !fields.isEmpty

/-- The two metrics extracted per benchmark: the `data` dict built by
`parse_contents`, with fields `Runtime` and `Throughput`. -/
structure BenchmarkRecord where
  Runtime : ℚ
  Throughput : ℚ
deriving DecidableEq

/-- Key extraction from the metadata record, the first half of the
`main` loop body: `group = meta['group_id']` (a `KeyError` aborts the
run when absent) and `function = meta.get('function_id', None) or
group` (the `or` falls back to `group` on any falsy value). -/
def extractKeys (meta : Json) : Except PyError (Json × Json) :=
  match jGet meta "group_id" with
  | none => .error (.keyError "group_id")
  | some group =>
    let fv := (jGet meta "function_id").getD Json.null
    .ok (group, if truthy fv then fv else group)

/-- Embedding of `parse_contents`: reads
`contents['Slope']['point_estimate']` (a `KeyError` aborts when either
key is absent) and returns the dict with `Runtime` the raw value and
`Throughput = 1000. / Runtime`; a runtime of exactly `0` raises
`ZeroDivisionError` at the division, with no prior guard, and a
non-numeric value raises `TypeError` there. -/
def parse_contents (contents : Json) : Except PyError BenchmarkRecord :=
  match jGet contents "Slope" with
  | none => .error (.keyError "Slope")
  | some slope =>
    match jGet slope "point_estimate" with
    | none => .error (.keyError "point_estimate")
    | some (.num r) =>
      if r = 0 then .error .zeroDivisionError
      else .ok { Runtime := r, Throughput := 1000 / r }
    | some _ => .error .typeError

/-- Update `fns[f] = r` on the inner dict, modelled as an
insertion-ordered association list: an existing key keeps its position
and original key object and has its value replaced; a new key is
appended at the end. -/
def setFn (fns : List (String × BenchmarkRecord)) (f : String) (r : BenchmarkRecord) :
    List (String × BenchmarkRecord) :=
  match fns with
  | [] => [(f, r)]
  | (f', r') :: rest => if f' = f then (f', r) :: rest else (f', r') :: setFn rest f r

/-- The two-level mapping `b : group → function → record`. -/
abbrev BenchmarkTable := List (String × List (String × BenchmarkRecord))

/-- One iteration of the `main` loop tail: `if group not in b:
b[group] = dict()` followed by `b[group][function] = parse_contents(...)`,
with dict insertion-order semantics. -/
def insertTable (b : BenchmarkTable) (g f : String) (r : BenchmarkRecord) : BenchmarkTable :=
  match b with
  | [] => [(g, [(f, r)])]
  | (g', fns) :: rest =>
    if g' = g then (g', setFn fns f r) :: rest else (g', fns) :: insertTable rest g f r

/-- The table built by the `main` loop from the extracted
`(group, function, record)` entries, in file-read order, starting from
the empty dict `b = dict()`. -/
def buildTable (entries : List (String × String × BenchmarkRecord)) : BenchmarkTable :=
  entries.foldl (fun b e => insertTable b e.1 e.2.1 e.2.2) []

/-- Lookup `b[g][f]` as an option. -/
def lookupFn (b : BenchmarkTable) (g f : String) : Option BenchmarkRecord :=
  (b.lookup g).bind (fun fns => fns.lookup f)

/-- All `(group_id, function_id)` keys present in the table, in table
order. -/
def tableKeys (b : BenchmarkTable) : List (String × String) :=
  b.flatMap (fun p => p.2.map (fun q => (p.1, q.1)))

mutual

/-- A directory in the benchmark results tree; files are irrelevant to
the walk (`os.walk` yields every directory) and are not modelled. -/
inductive FSTree where
  | dir : String → FSForest → FSTree

/-- The ordered children of a directory. -/
inductive FSForest where
  | nil : FSForest
  | cons : FSTree → FSForest → FSForest

end

mutual

/-- Directory paths visited by `os.walk` below a directory whose path is
`parent`, in top-down order: each child directory `d` contributes
`parent/d` followed by its own walk. -/
def walkForest (parent : String) : FSForest → List String
  | .nil => []
  | .cons t ts => walkTree parent t ++ walkForest parent ts

/-- Directory paths visited by `os.walk` for the single child `t` of the
directory at `parent`. -/
def walkTree (parent : String) : FSTree → List String
  | .dir name children =>
    (parent ++ "/" ++ name) :: walkForest (parent ++ "/" ++ name) children

end

/-- Embedding of `os.walk(root)` restricted to the directory paths it
yields: the root itself first, then every descendant top-down.  The
filesystem under `root` is `none` when the root directory does not
exist, in which case `os.walk` yields nothing. -/
def osWalk (root : String) : Option FSForest → List String
  | none => []
  | some children => root :: walkForest root children

/-- Base name of a path: `os.path.split(p)[-1]`, the characters after
the last slash (paths here are produced by `os.path.join` with `/`). -/
def baseName (p : String) : String :=
  ⟨p.data.foldl (fun acc c => if c = '/' then [] else acc ++ [c]) []⟩

/-- The loop body of `benchmark_files` over the walked directory list:
directories whose base name is not `new` are skipped; each remaining
directory `d` yields the pair `(d/benchmark.json, d/estimates.json)`. -/
def benchFilesLoop : List String → List (String × String)
  | [] => []
  | d :: rest =>
    if baseName d = "new" then
      (d ++ "/" ++ "benchmark.json", d ++ "/" ++ "estimates.json") :: benchFilesLoop rest
    else benchFilesLoop rest

/-- Embedding of `benchmark_files`: walk the results tree rooted at
`root` (the `criterion` directory adjacent to the tool) and yield one
path pair per directory named `new`. -/
def benchmark_files (root : String) (fsys : Option FSForest) : List (String × String) :=
  benchFilesLoop (osWalk root fsys)

/-- Fuel-indexed core of Python `str.replace(old, new)`: scan left to
right, replacing non-overlapping occurrences of `old`; the fuel (the
length of the scanned text) bounds the recursion. -/
def replaceAux (old new : List Char) : ℕ → List Char → List Char
  | 0, s => s
  | _ + 1, [] => []
  | fuel + 1, c :: rest =>
    if old.isPrefixOf (c :: rest) then
      new ++ replaceAux old new fuel ((c :: rest).drop old.length)
    else c :: replaceAux old new fuel rest

/-- Python `s.replace(old, new)` for a non-empty pattern. -/
def pyReplace (s old new : String) : String :=
  ⟨replaceAux old.data new.data s.data.length s.data⟩

/-- The Jinja filter `replace("_", "\_")` applied to a group or
function name before emission into the markdown table. -/
def mdEscape (s : String) : String :=
  pyReplace s "_" "\\_"

/-- Decimal digits of `n`, most significant first, by repeated division;
the fuel argument (any bound at least `n`) makes the recursion
structural. -/
def natDigitsAux : ℕ → ℕ → List Char
  | 0, n => [Nat.digitChar n]
  | fuel + 1, n =>
    if n < 10 then [Nat.digitChar n]
    else natDigitsAux fuel (n / 10) ++ [Nat.digitChar (n % 10)]

/-- Decimal digit string of a natural number. -/
def natDigits (n : ℕ) : List Char :=
  natDigitsAux n n

/-- Rounding of a rational to the nearest integer, ties to even — the
rounding printf applies when formatting with one fractional digit. -/
def rhe (x : ℚ) : ℤ :=
  if x - ⌊x⌋ < 1 / 2 then ⌊x⌋
  else if x - ⌊x⌋ > 1 / 2 then ⌊x⌋ + 1
  else if 2 ∣ ⌊x⌋ then ⌊x⌋ else ⌊x⌋ + 1

/-- The digits of `'%.1f' % q` before padding: an optional minus sign,
the integer part of the rounded value, a decimal point and exactly one
fractional digit. -/
def fmtCore (q : ℚ) : String :=
  ⟨(if q < 0 then ['-'] else []) ++
    natDigits ((rhe (10 * q)).natAbs / 10) ++
    '.' :: [Nat.digitChar ((rhe (10 * q)).natAbs % 10)]⟩

/-- Left padding with spaces to a minimum width, as printf field widths
do. -/
def padLeft (w : ℕ) (s : String) : String :=
  ⟨List.replicate (w - s.length) ' ' ++ s.data⟩

/-- The template expression `'%6.1f' | format(x)`: one fractional
digit, right-aligned in a field at least six characters wide. -/
def fmt61f (q : ℚ) : String :=
  padLeft 6 (fmtCore q)

/-- Ordering of dict entries used by `sorted(iteritems(...))`: Python
compares the `(key, value)` tuples, which on distinct string keys is
comparison of the keys. -/
def keyLe {α : Type} (a b : String × α) : Prop :=
  a.1 ≤ b.1

instance {α : Type} : DecidableRel (@keyLe α) :=
  fun a b => inferInstanceAs (Decidable (a.1 ≤ b.1))

instance {α : Type} : IsTotal (String × α) keyLe :=
  ⟨fun a b => le_total a.1 b.1⟩

instance {α : Type} : IsTrans (String × α) keyLe :=
  ⟨fun _ _ _ h h' => le_trans h h'⟩

/-- The sorting pass of `print_benchmarks`: every inner dict is
replaced by `OrderedDict(sorted(iteritems(v)))`, then the outer dict by
`OrderedDict(sorted(iteritems(benchmarks)))`.  Python `sorted` is a
stable sort, so it agrees with `List.insertionSort` on every input. -/
def sortedTable (b : BenchmarkTable) : BenchmarkTable :=
  List.insertionSort keyLe (b.map (fun p => (p.1, List.insertionSort keyLe p.2)))

/-- The `(group, function, record)` triples in the order the template
loops emit them: groups in sorted order, functions in sorted order
within each group. -/
def tableRows (b : BenchmarkTable) : List (String × String × BenchmarkRecord) :=
  (sortedTable b).flatMap (fun p => p.2.map (fun q => (p.1, q.1, q.2)))

/-- One data row of the rendered table, as produced by the template
body: escaped group, escaped function, then the two `%6.1f` numbers,
joined by pipes. -/
def rowString (g f : String) (r : BenchmarkRecord) : String :=
  mdEscape g ++ " | " ++ mdEscape f ++ " | " ++ fmt61f r.Runtime ++ " | " ++ fmt61f r.Throughput

/-- The data rows of the report for table `b`, in emission order. -/
def rowStrings (b : BenchmarkTable) : List String :=
  (tableRows b).map (fun e => rowString e.1 e.2.1 e.2.2)

/-- The static part of the template: title, hardware paragraph, column
header row and alignment row.  The `\x7b%- ... %\x7d` tags strip the
whitespace before them, so no newline follows the alignment row. -/
def headerText : String :=
  "# Benchmarks\n\nAll benchmarks run on a 2017 Macbook Pro with a 3.1 GHz Intel Core i7\nprocessor and 16 GB 2133 MHz LPDDR3 RAM.\n\nGroup | Function | Runtime (ns) | Throughput (Mops/s)\n------|----------|-------------:|-------------------:"

/-- Embedding of `print_benchmarks` (its pure part): the text written
to `benches/README.md`.  Each loop iteration contributes a newline
followed by one data row; the trailing newlines inside the loop bodies
are stripped by the template tags. -/
def print_benchmarks (b : BenchmarkTable) : String :=
  headerText ++ String.join ((rowStrings b).map (fun s => "\n" ++ s))

/-- One iteration of the `main` loop for a parsed `(benchmark.json,
estimates.json)` pair: extract the keys, then the record.  The external
interface fixes `group_id` and `function_id` to strings; values of any
other type are rejected here as a type error, since the table and the
renderer are modelled over string keys. -/
def processPair (meta estimates : Json) : Except PyError (String × String × BenchmarkRecord) := do
  let keys ← extractKeys meta
  let r ← parse_contents estimates
  match keys.1, keys.2 with
  | .str g, .str f => pure (g, f, r)
  | _, _ => .error .typeError

/-- The `main` loop over the discovered file pairs in read order: the
first error aborts the whole run, otherwise the extracted entries are
collected in order. -/
def processEntries : List (Json × Json) → Except PyError (List (String × String × BenchmarkRecord))
  | [] => pure []
  | p :: rest => do
    let e ← processPair p.1 p.2
    let es ← processEntries rest
    pure (e :: es)

/-- Embedding of `main` after discovery: process every file pair in
read order (the first error aborts the whole run with no output) and
render the resulting table. -/
def processBenchmarks (inputs : List (Json × Json)) : Except PyError String := do
  let entries ← processEntries inputs
  pure (print_benchmarks (buildTable entries))

/-- Embedding of the whole run: discovery over the filesystem below
`root`, reading each discovered path with `readFile`, then extraction
and rendering. -/
def mainRun (root : String) (fsys : Option FSForest) (readFile : String → Json) :
    Except PyError String :=
  processBenchmarks ((benchmark_files root fsys).map (fun p => (readFile p.1, readFile p.2)))

/-- Well-formedness of the association-list encoding of the dict of
dicts: the group keys are distinct, and the function keys within each
group are distinct.  Python dicts satisfy this by construction. -/
def TableWF (b : BenchmarkTable) : Prop :=
  (b.map Prod.fst).Nodup ∧ ∀ p ∈ b, (p.2.map Prod.fst).Nodup

/-- Metadata fixture for the end-to-end example: `group_id` is `sort`
and there is no `function_id`. -/
def metaSort : Json :=
  .obj [("group_id", .str "sort")]

/-- Estimates fixture for the end-to-end example:
`Slope.point_estimate` is `2.0`. -/
def estSort : Json :=
  .obj [("Slope", .obj [("point_estimate", .num 2)])]

/-- Estimates fixture with a zero point estimate. -/
def estZero : Json :=
  .obj [("Slope", .obj [("point_estimate", .num 0)])]

/-- Filesystem fixture in which the directory `new` is not a leaf: it
has a subdirectory `sub`. -/
def nonLeafFS : FSForest :=
  .cons (.dir "new" (.cons (.dir "sub" .nil) .nil)) .nil

/-- Claim C1.  For every extracted benchmark whose estimates record has
`Slope.point_estimate = r` with `r > 0`, the resulting record has
`Runtime = r` and `Throughput = 1000 / r` (the stored runtime is the
parsed point estimate unchanged, and the throughput is exactly the
reciprocal scaling). -/
theorem throughput_of_positive_runtime (j slope : Json) (r : ℚ)
    (hs : jGet j "Slope" = some slope)
    (hp : jGet slope "point_estimate" = some (.num r))
    (hr : 0 < r) :
    parse_contents j = .ok { Runtime := r, Throughput := 1000 / r } := by
  simp only [parse_contents, hs, hp]
  rw [if_neg (ne_of_gt hr)]

/-- Witness for C1 at `point_estimate = 2`. -/
theorem throughput_of_positive_runtime_witness :
    jGet estSort "Slope" = some (.obj [("point_estimate", .num 2)]) ∧
    jGet (.obj [("point_estimate", .num 2)]) "point_estimate" = some (.num 2) ∧
    (0 : ℚ) < 2 ∧
    parse_contents estSort = .ok { Runtime := 2, Throughput := 1000 / 2 } :=
  ⟨rfl, rfl, by norm_num,
    throughput_of_positive_runtime _ _ _ rfl rfl (by norm_num)⟩

/-- Claim C10.  The throughput computation is unguarded against a zero
runtime: on an estimates record with `Slope.point_estimate = 0`, the
division `1000. / 0` raises `ZeroDivisionError` — there is no prior
check rejecting the zero and no infinite/NaN value is produced — and
the whole run aborts with that error. -/
theorem zero_runtime_division_error :
    parse_contents estZero = .error .zeroDivisionError ∧
    processBenchmarks [(metaSort, estZero)] = .error .zeroDivisionError := by
  constructor
  · rfl
  · rfl

/-- Binding a failed `Except` computation propagates the error. -/
@[simp]
theorem except_error_bind {ε α β : Type} (e : ε) (f : α → Except ε β) :
    (Except.error e >>= f) = Except.error e :=
  rfl

/-- Claim C4.  Key extraction reads `group_id` as required — when it is
missing the extraction fails with the missing-field error and the whole
run aborts — and `function_id` as optional: when it is absent or falsy
(for example null or the empty string) the function key is the
`group_id` value, and otherwise it is the `function_id` value. -/
theorem extractKeys_required_optional (meta : Json) :
    (jGet meta "group_id" = none →
      extractKeys meta = .error (.keyError "group_id") ∧
      ∀ est rest, processBenchmarks ((meta, est) :: rest) = .error (.keyError "group_id")) ∧
    (∀ g, jGet meta "group_id" = some g →
      (jGet meta "function_id" = none → extractKeys meta = .ok (g, g)) ∧
      (∀ fv, jGet meta "function_id" = some fv → truthy fv = false →
        extractKeys meta = .ok (g, g)) ∧
      (∀ fv, jGet meta "function_id" = some fv → truthy fv = true →
        extractKeys meta = .ok (g, fv))) := by
  refine ⟨fun hg => ⟨?_, fun est rest => ?_⟩, fun g hg => ⟨fun hf => ?_, fun fv hf hfv => ?_, fun fv hf hfv => ?_⟩⟩
  · rw [extractKeys, hg]
  · have h1 : processPair meta est = .error (.keyError "group_id") := by
      rw [processPair]
      rw [extractKeys, hg]
      rfl
    simp [processBenchmarks, processEntries, h1]
  · rw [extractKeys, hg]
    simp [hf, truthy]
  · rw [extractKeys, hg]
    simp [hf, hfv]
  · rw [extractKeys, hg]
    simp [hf, hfv]

/-- Witness for C4: the three branches at concrete metadata records —
no `group_id`; `group_id` only; a falsy (empty-string) `function_id`;
and a truthy `function_id`. -/
theorem extractKeys_required_optional_witness :
    extractKeys (.obj []) = .error (.keyError "group_id") ∧
    processBenchmarks [((.obj []), estSort)] = .error (.keyError "group_id") ∧
    extractKeys (.obj [("group_id", .str "g")]) = .ok (.str "g", .str "g") ∧
    extractKeys (.obj [("group_id", .str "g"), ("function_id", .str "")]) =
      .ok (.str "g", .str "g") ∧
    extractKeys (.obj [("group_id", .str "g"), ("function_id", .str "f")]) =
      .ok (.str "g", .str "f") :=
  ⟨((extractKeys_required_optional (.obj [])).1 rfl).1,
    ((extractKeys_required_optional (.obj [])).1 rfl).2 estSort [],
    (((extractKeys_required_optional (.obj [("group_id", .str "g")])).2 (.str "g") rfl).1 rfl),
    ((((extractKeys_required_optional
        (.obj [("group_id", .str "g"), ("function_id", .str "")])).2
          (.str "g") rfl).2.1 (.str "") rfl) (by rfl)),
    ((((extractKeys_required_optional
        (.obj [("group_id", .str "g"), ("function_id", .str "f")])).2
          (.str "g") rfl).2.2 (.str "f") rfl) (by rfl))⟩

/-- Replacing the single-character pattern `_` rewrites the text
character by character: an underscore becomes backslash-underscore and
every other character is kept unchanged. -/
theorem replaceAux_underscore (l : List Char) (fuel : ℕ) (h : l.length ≤ fuel) :
    replaceAux ['_'] ['\\', '_'] fuel l =
      l.flatMap (fun c => if c = '_' then ['\\', '_'] else [c]) := by
  induction l generalizing fuel with
  | nil => cases fuel <;> simp [replaceAux]
  | cons c rest ih =>
    cases fuel with
    | zero => simp at h
    | succ fuel =>
      simp only [List.length_cons, Nat.add_le_add_iff_right] at h
      by_cases hc : c = '_'
      · subst hc
        have hpre : List.isPrefixOf ['_'] ('_' :: rest) = true := by
          simp [List.isPrefixOf]
        simp [replaceAux, hpre, ih fuel h]
      · have hpre : List.isPrefixOf ['_'] (c :: rest) = false := by
          simp [List.isPrefixOf]
          exact fun hcc => absurd hcc.symm hc
        simp [replaceAux, hpre, ih fuel h, hc]

/-- Claim C5.  When a group or function name is emitted into the
markdown table, every underscore in it is replaced by
backslash-underscore and no other character is altered or escaped; in
particular `my_group` renders as `my\_group`. -/
theorem mdEscape_underscores_only (s : String) :
    (mdEscape s).data = s.data.flatMap (fun c => if c = '_' then ['\\', '_'] else [c]) ∧
    mdEscape "my_group" = "my\\_group" := by
  constructor
  · exact replaceAux_underscore s.data s.data.length le_rfl
  · decide

/-- Every character of `Nat.digitChar` applied below ten is a decimal
digit. -/
theorem digitChar_isDigit (m : ℕ) (h : m < 10) : (Nat.digitChar m).isDigit = true := by
  interval_cases m <;> decide

/-- All characters produced by the fuelled digit expansion are decimal
digits, provided the fuel is at least the number expanded. -/
theorem natDigitsAux_digits (fuel : ℕ) :
    ∀ n, n ≤ fuel → ∀ c ∈ natDigitsAux fuel n, c.isDigit = true := by
  induction fuel with
  | zero =>
    intro n hn c hc
    interval_cases n
    simp [natDigitsAux] at hc
    subst hc
    decide
  | succ fuel ih =>
    intro n hn c hc
    rw [natDigitsAux] at hc
    by_cases h10 : n < 10
    · rw [if_pos h10] at hc
      simp at hc
      subst hc
      exact digitChar_isDigit n h10
    · rw [if_neg h10] at hc
      rcases List.mem_append.1 hc with hc1 | hc2
      · have hdiv : n / 10 ≤ fuel := by
          have := Nat.div_lt_self (by omega : 0 < n) (by norm_num : 1 < 10)
          omega
        exact ih (n / 10) hdiv c hc1
      · simp at hc2
        subst hc2
        exact digitChar_isDigit (n % 10) (Nat.mod_lt _ (by norm_num))

/-- All characters of the decimal expansion of a natural number are
decimal digits. -/
theorem natDigits_digits (n : ℕ) : ∀ c ∈ natDigits n, c.isDigit = true :=
  natDigitsAux_digits n n le_rfl

/-- Claim C6.  In every data row of the report both numbers are
rendered by `%6.1f`: each data row is the escaped names followed by
the formatted runtime and throughput, and every formatted value is at
least six characters long, right-aligned (all padding spaces lie in
front of the number), with a single decimal point followed by exactly
one digit. -/
theorem fmt61f_width_and_decimals (g f : String) (r : BenchmarkRecord) (q : ℚ) :
    rowString g f r =
      mdEscape g ++ " | " ++ mdEscape f ++ " | " ++
        fmt61f r.Runtime ++ " | " ++ fmt61f r.Throughput ∧
    6 ≤ (fmt61f q).length ∧
    ∃ (k : ℕ) (pre : List Char) (d : Char),
      (fmt61f q).data = List.replicate k ' ' ++ (pre ++ ['.', d]) ∧
      d.isDigit = true ∧ '.' ∉ pre ∧ ' ' ∉ pre := by
  refine ⟨rfl, ?_, ?_⟩
  · show 6 ≤ (padLeft 6 (fmtCore q)).length
    simp only [padLeft, String.length]
    simp
    omega
  · refine ⟨6 - (fmtCore q).length,
      (if q < 0 then ['-'] else []) ++ natDigits ((rhe (10 * q)).natAbs / 10),
      Nat.digitChar ((rhe (10 * q)).natAbs % 10), ?_, ?_, ?_, ?_⟩
    · show (padLeft 6 (fmtCore q)).data = _
      simp only [padLeft, fmtCore, String.length]
    · exact digitChar_isDigit _ (Nat.mod_lt _ (by norm_num))
    · intro hmem
      rcases List.mem_append.1 hmem with h1 | h2
      · split at h1 <;> simp at h1
      · have := natDigits_digits _ _ h2
        simp at this
    · intro hmem
      rcases List.mem_append.1 hmem with h1 | h2
      · split at h1 <;> simp at h1
      · have := natDigits_digits _ _ h2
        simp at this

/-- Lookup after a dict update of the inner table: the updated key maps
to the new record, every other key is unaffected. -/
theorem lookup_setFn (fns : List (String × BenchmarkRecord)) (f f' : String)
    (r : BenchmarkRecord) :
    (setFn fns f r).lookup f' = if f' = f then some r else fns.lookup f' := by
  induction fns with
  | nil =>
    by_cases h : f' = f
    · subst h
      simp [setFn, List.lookup]
    · have hb : (f' == f) = false := beq_eq_false_iff_ne.mpr h
      simp [setFn, List.lookup, hb, h]
  | cons p rest ih =>
    obtain ⟨f₀, r₀⟩ := p
    by_cases h0 : f₀ = f
    · subst h0
      by_cases h : f' = f₀
      · subst h
        simp [setFn, List.lookup]
      · have hb : (f' == f₀) = false := beq_eq_false_iff_ne.mpr h
        simp [setFn, List.lookup, hb, h]
    · by_cases h : f' = f₀
      · subst h
        simp [setFn, h0, List.lookup]
      · have hb : (f' == f₀) = false := beq_eq_false_iff_ne.mpr h
        simp [setFn, h0, List.lookup, hb, ih]

/-- Lookup after one `main`-loop insertion: the inserted key maps to
the inserted record, every other key is unaffected. -/
theorem lookupFn_insertTable (b : BenchmarkTable) (g f g' f' : String) (r : BenchmarkRecord) :
    lookupFn (insertTable b g f r) g' f' =
      if g' = g ∧ f' = f then some r else lookupFn b g' f' := by
  induction b with
  | nil =>
    by_cases hg : g' = g
    · subst hg
      by_cases hf : f' = f
      · subst hf
        simp [insertTable, lookupFn, List.lookup]
      · have hb : (f' == f) = false := beq_eq_false_iff_ne.mpr hf
        simp [insertTable, lookupFn, List.lookup, hb, hf]
    · have hb : (g' == g) = false := beq_eq_false_iff_ne.mpr hg
      simp [insertTable, lookupFn, List.lookup, hb, hg]
  | cons p rest ih =>
    obtain ⟨g₀, fns⟩ := p
    by_cases h0 : g₀ = g
    · subst h0
      by_cases hg : g' = g₀
      · subst hg
        simp [insertTable, lookupFn, List.lookup, lookup_setFn]
      · have hb : (g' == g₀) = false := beq_eq_false_iff_ne.mpr hg
        simp [insertTable, lookupFn, List.lookup, hb, hg]
    · by_cases hg : g' = g₀
      · subst hg
        simp [insertTable, lookupFn, List.lookup, h0]
      · have hb : (g' == g₀) = false := beq_eq_false_iff_ne.mpr hg
        simp [insertTable, lookupFn, List.lookup, h0, hb] at ih ⊢
        exact ih

/-- Updating an inner dict adds the updated key and keeps all other
keys. -/
theorem mem_fst_setFn (fns : List (String × BenchmarkRecord)) (f x : String)
    (r : BenchmarkRecord) :
    x ∈ (setFn fns f r).map Prod.fst ↔ x ∈ fns.map Prod.fst ∨ x = f := by
  induction fns with
  | nil =>
    simp [setFn]
  | cons p rest ih =>
    obtain ⟨f₀, r₀⟩ := p
    by_cases h0 : f₀ = f
    · subst h0
      simp only [setFn]
      simp only [if_true, List.map_cons, List.mem_cons]
      tauto
    · simp only [setFn, if_neg h0, List.map_cons, List.mem_cons, ih]
      tauto

/-- Updating an inner dict never duplicates a function key. -/
theorem nodup_fst_setFn (fns : List (String × BenchmarkRecord)) (f : String)
    (r : BenchmarkRecord) (h : (fns.map Prod.fst).Nodup) :
    ((setFn fns f r).map Prod.fst).Nodup := by
  induction fns with
  | nil =>
    simp [setFn]
  | cons p rest ih =>
    obtain ⟨f₀, r₀⟩ := p
    rw [List.map_cons, List.nodup_cons] at h
    by_cases h0 : f₀ = f
    · subst h0
      simp only [setFn]
      simp only [if_true]
      rw [List.map_cons, List.nodup_cons]
      exact h
    · simp only [setFn, if_neg h0]
      rw [List.map_cons, List.nodup_cons]
      refine ⟨?_, ih h.2⟩
      intro hx
      rcases (mem_fst_setFn rest f f₀ r).1 hx with hmem | heq
      · exact h.1 hmem
      · exact h0 heq

/-- Inserting into the table adds the group key and keeps all other
group keys. -/
theorem mem_fst_insertTable (b : BenchmarkTable) (g f x : String) (r : BenchmarkRecord) :
    x ∈ (insertTable b g f r).map Prod.fst ↔ x ∈ b.map Prod.fst ∨ x = g := by
  induction b with
  | nil =>
    simp [insertTable]
  | cons p rest ih =>
    obtain ⟨g₀, fns⟩ := p
    by_cases h0 : g₀ = g
    · subst h0
      simp only [insertTable]
      simp only [if_true, List.map_cons, List.mem_cons]
      tauto
    · simp only [insertTable, if_neg h0, List.map_cons, List.mem_cons, ih]
      tauto

/-- One `main`-loop insertion preserves well-formedness of the
table. -/
theorem tableWF_insertTable (b : BenchmarkTable) (g f : String) (r : BenchmarkRecord)
    (h : TableWF b) : TableWF (insertTable b g f r) := by
  induction b with
  | nil =>
    refine ⟨by simp [insertTable], ?_⟩
    intro p hp
    simp only [insertTable, List.mem_singleton] at hp
    subst hp
    simp
  | cons q rest ih =>
    obtain ⟨g₀, fns⟩ := q
    obtain ⟨hnd, hin⟩ := h
    rw [List.map_cons, List.nodup_cons] at hnd
    by_cases h0 : g₀ = g
    · subst h0
      refine ⟨?_, ?_⟩
      · simp only [insertTable]
        simp only [if_true]
        rw [List.map_cons, List.nodup_cons]
        exact hnd
      · intro p hp
        simp only [insertTable] at hp
        simp only [if_true, List.mem_cons] at hp
        rcases hp with hp | hp
        · subst hp
          exact nodup_fst_setFn _ _ _ (hin (g₀, fns) (List.mem_cons_self _ _))
        · exact hin p (List.mem_cons_of_mem _ hp)
    · have hrest : TableWF rest := ⟨hnd.2, fun p hp => hin p (List.mem_cons_of_mem _ hp)⟩
      obtain ⟨ih1, ih2⟩ := ih hrest
      refine ⟨?_, ?_⟩
      · simp only [insertTable, if_neg h0]
        rw [List.map_cons, List.nodup_cons]
        refine ⟨?_, ih1⟩
        intro hx
        rcases (mem_fst_insertTable rest g f g₀ r).1 hx with hmem | heq
        · exact hnd.1 hmem
        · exact h0 heq
      · intro p hp
        simp only [insertTable, if_neg h0, List.mem_cons] at hp
        rcases hp with hp | hp
        · subst hp
          exact hin (g₀, fns) (List.mem_cons_self _ _)
        · exact ih2 p hp

/-- The table built by the `main` loop is well-formed: dict semantics
never duplicate a group or a function key. -/
theorem tableWF_buildTable (l : List (String × String × BenchmarkRecord)) :
    TableWF (buildTable l) := by
  suffices h : ∀ b, TableWF b →
      TableWF (l.foldl (fun b e => insertTable b e.1 e.2.1 e.2.2) b) by
    exact h [] ⟨by simp, by simp⟩
  induction l with
  | nil => exact fun b hb => hb
  | cons e t ih =>
    intro b hb
    exact ih _ (tableWF_insertTable b e.1 e.2.1 e.2.2 hb)

/-- A key pair in the table names a group present in the table. -/
theorem mem_fst_of_mem_tableKeys (b : BenchmarkTable) (g f : String)
    (h : (g, f) ∈ tableKeys b) : g ∈ b.map Prod.fst := by
  rw [tableKeys, List.mem_flatMap] at h
  obtain ⟨p, hp, hmem⟩ := h
  obtain ⟨q, _, hq⟩ := List.mem_map.1 hmem
  have hg : p.1 = g := congrArg Prod.fst hq
  exact List.mem_map.2 ⟨p, hp, hg⟩

/-- In a well-formed table every `(group, function)` key pair appears
at most once. -/
theorem tableKeys_nodup_of_wf (b : BenchmarkTable) (h : TableWF b) :
    (tableKeys b).Nodup := by
  induction b with
  | nil => simp [tableKeys]
  | cons p rest ih =>
    obtain ⟨g₀, fns⟩ := p
    obtain ⟨hnd, hin⟩ := h
    rw [List.map_cons, List.nodup_cons] at hnd
    have hfn : (fns.map Prod.fst).Nodup := hin (g₀, fns) (List.mem_cons_self _ _)
    have h1 : (((fns.map Prod.fst).map (fun s => (g₀, s))).Nodup) :=
      hfn.map (fun a b hab => congrArg Prod.snd hab)
    rw [List.map_map] at h1
    have h2 : (tableKeys rest).Nodup :=
      ih ⟨hnd.2, fun p hp => hin p (List.mem_cons_of_mem _ hp)⟩
    rw [tableKeys, List.flatMap_cons, List.nodup_append]
    refine ⟨h1, h2, ?_⟩
    intro x hx hx2
    obtain ⟨q, hq, hxq⟩ := List.mem_map.1 hx
    have : g₀ ∈ rest.map Prod.fst := by
      refine mem_fst_of_mem_tableKeys rest g₀ q.1 ?_
      rw [← show x = (g₀, q.1) from hxq.symm]
      exact hx2
    exact hnd.1 this

/-- Association-list lookup succeeds exactly on the stored keys. -/
theorem lookup_isSome_iff {β : Type} (l : List (String × β)) (a : String) :
    (l.lookup a).isSome ↔ a ∈ l.map Prod.fst := by
  induction l with
  | nil => simp [List.lookup]
  | cons p rest ih =>
    obtain ⟨k, v⟩ := p
    by_cases h : a = k
    · subst h
      simp [List.lookup]
    · have hb : (a == k) = false := beq_eq_false_iff_ne.mpr h
      simp [List.lookup, hb, h, ih]

/-- In a well-formed table, `b[g][f]` succeeds exactly when `(g, f)` is
one of the table's key pairs. -/
theorem lookupFn_isSome_iff (b : BenchmarkTable) (g f : String) (hwf : TableWF b) :
    (lookupFn b g f).isSome ↔ (g, f) ∈ tableKeys b := by
  induction b with
  | nil => simp [lookupFn, tableKeys, List.lookup]
  | cons p rest ih =>
    obtain ⟨g₀, fns⟩ := p
    obtain ⟨hnd, hin⟩ := hwf
    rw [List.map_cons, List.nodup_cons] at hnd
    have hrest := ih ⟨hnd.2, fun p hp => hin p (List.mem_cons_of_mem _ hp)⟩
    rw [tableKeys, List.flatMap_cons, List.mem_append]
    by_cases hg : g = g₀
    · subst hg
      have h1 : lookupFn ((g, fns) :: rest) g f = fns.lookup f := by
        simp [lookupFn, List.lookup]
      rw [h1]
      have h2 : ((g, f) ∈ fns.map (fun q => (g, q.1))) ↔ f ∈ fns.map Prod.fst := by
        simp
      have h3 : ¬((g, f) ∈ tableKeys rest) := by
        intro hmem
        exact hnd.1 (mem_fst_of_mem_tableKeys rest g f hmem)
      rw [h2]
      constructor
      · intro hs
        exact Or.inl ((lookup_isSome_iff fns f).1 hs)
      · intro hs
        rcases hs with hs | hs
        · exact (lookup_isSome_iff fns f).2 hs
        · exact absurd (by simpa [tableKeys] using hs) h3
    · have hb : (g == g₀) = false := beq_eq_false_iff_ne.mpr hg
      have h1 : lookupFn ((g₀, fns) :: rest) g f = lookupFn rest g f := by
        simp [lookupFn, List.lookup, hb]
      rw [h1, hrest]
      have h2 : ¬((g, f) ∈ fns.map (fun q => (g₀, q.1))) := by
        intro hmem
        obtain ⟨q, _, hq⟩ := List.mem_map.1 hmem
        exact hg (congrArg Prod.fst hq).symm
      constructor
      · intro hs
        exact Or.inr (by simpa [tableKeys] using hs)
      · intro hs
        rcases hs with hs | hs
        · exact absurd hs h2
        · simpa [tableKeys] using hs

/-- Lookup in the table built by the loop returns the record of the
last entry read with the looked-up key pair. -/
theorem lookupFn_foldl (l : List (String × String × BenchmarkRecord)) (g f : String) :
    ∀ b, lookupFn (l.foldl (fun b e => insertTable b e.1 e.2.1 e.2.2) b) g f =
      match l.reverse.find? (fun e => e.1 == g && e.2.1 == f) with
      | some e => some e.2.2
      | none => lookupFn b g f := by
  induction l with
  | nil =>
    intro b
    simp
  | cons e t ih =>
    intro b
    rw [List.foldl_cons, ih (insertTable b e.1 e.2.1 e.2.2),
      List.reverse_cons, List.find?_append]
    rcases hfind : (t.reverse.find? fun e => e.1 == g && e.2.1 == f) with _ | v
    · rw [hfind]
      simp only [Option.none_or]
      rw [lookupFn_insertTable]
      by_cases hp : g = e.1 ∧ f = e.2.1
      · have hb : (e.1 == g && e.2.1 == f) = true := by
          simp [hp.1.symm, hp.2.symm]
        simp [List.find?, hb, hp]
      · have hb : (e.1 == g && e.2.1 == f) = false := by
          rcases not_and_or.1 hp with h | h
          · simp [beq_eq_false_iff_ne.mpr (fun hc => h hc.symm)]
          · simp [beq_eq_false_iff_ne.mpr (fun hc => h hc.symm)]
        simp [List.find?, hb, hp]
    · rw [hfind]
      simp [Option.or]

/-- Claim C3.  For every sequence of extracted inputs, looking any key
pair up in the final table returns the record of the last input with
that key (last-write-wins); consequently the key pairs of the table are
exactly the key pairs occurring among the inputs, and each pair occurs
at most once in the table. -/
theorem buildTable_last_write_wins (l : List (String × String × BenchmarkRecord))
    (g f : String) :
    lookupFn (buildTable l) g f =
      (l.reverse.find? (fun e => e.1 == g && e.2.1 == f)).map (fun e => e.2.2) ∧
    ((g, f) ∈ tableKeys (buildTable l) ↔ (g, f) ∈ l.map (fun e => (e.1, e.2.1))) ∧
    (tableKeys (buildTable l)).Nodup := by
  have hmain : lookupFn (buildTable l) g f =
      (l.reverse.find? (fun e => e.1 == g && e.2.1 == f)).map (fun e => e.2.2) := by
    rw [buildTable, lookupFn_foldl]
    rcases hfind : (l.reverse.find? fun e => e.1 == g && e.2.1 == f) with _ | v
    · rw [hfind]
      simp [lookupFn, List.lookup]
    · rw [hfind]
      simp
  refine ⟨hmain, ?_, tableKeys_nodup_of_wf _ (tableWF_buildTable l)⟩
  rw [← lookupFn_isSome_iff _ _ _ (tableWF_buildTable l), hmain]
  rw [Option.isSome_map']
  rw [List.find?_isSome]
  constructor
  · intro h
    obtain ⟨e, he, hpe⟩ := h
    rw [List.mem_reverse] at he
    simp only [Bool.and_eq_true, beq_iff_eq] at hpe
    exact List.mem_map.2 ⟨e, he, by rw [hpe.1, hpe.2]⟩
  · intro h
    obtain ⟨e, he, hkey⟩ := List.mem_map.1 h
    refine ⟨e, List.mem_reverse.2 he, ?_⟩
    simp only [Bool.and_eq_true, beq_iff_eq]
    exact ⟨congrArg Prod.fst hkey, congrArg Prod.snd hkey⟩

/-- Flattening a group list whose group keys strictly increase and
whose inner lists are sorted produces rows whose adjacent key pairs are
lexicographically non-decreasing. -/
theorem chain'_flatMap_expand (gs : BenchmarkTable)
    (hp : List.Pairwise (fun p q => p.1 < q.1) gs)
    (hin : ∀ p ∈ gs, List.Sorted keyLe p.2) :
    List.Chain' (fun p q => p.1 ≤ q.1 ∧ (p.1 = q.1 → p.2.1 ≤ q.2.1))
      (gs.flatMap (fun p => p.2.map (fun q => (p.1, q.1, q.2)))) := by
  induction gs with
  | nil => simp
  | cons p rest ih =>
    obtain ⟨hhead, htail⟩ := List.pairwise_cons.1 hp
    rw [List.flatMap_cons, List.chain'_append]
    refine ⟨?_, ih htail (fun q hq => hin q (List.mem_cons_of_mem _ hq)), ?_⟩
    · rw [List.chain'_map]
      have hs : List.Chain' keyLe p.2 := (hin p (List.mem_cons_self _ _)).chain'
      exact hs.imp (fun a b hab => ⟨le_refl _, fun _ => hab⟩)
    · intro x hx y hy
      have hx1 : x.1 = p.1 := by
        have hxm : x ∈ p.2.map (fun q => (p.1, q.1, q.2)) :=
          List.mem_of_getLast?_eq_some (Option.mem_def.1 hx)
        obtain ⟨q, _, hq⟩ := List.mem_map.1 hxm
        exact (congrArg Prod.fst hq).symm
      have hy1 : ∃ q ∈ rest, y.1 = q.1 := by
        have hym : y ∈ rest.flatMap (fun p => p.2.map (fun q => (p.1, q.1, q.2))) :=
          List.mem_of_mem_head? hy
        obtain ⟨q, hqrest, hyq⟩ := List.mem_flatMap.1 hym
        obtain ⟨u, _, hu⟩ := List.mem_map.1 hyq
        exact ⟨q, hqrest, (congrArg Prod.fst hu).symm⟩
      obtain ⟨q, hqrest, hyq⟩ := hy1
      have hlt : p.1 < q.1 := hhead q hqrest
      rw [hx1, hyq]
      exact ⟨le_of_lt hlt, fun heq => absurd heq (ne_of_lt hlt)⟩

/-- Claim C2.  In the rendered report, for any two adjacent data rows
the group of the first is at most the group of the second, and when
the groups are equal the functions are non-decreasing — for every
input table (with distinct group keys, as Python dicts guarantee)
regardless of insertion order. -/
theorem rendered_rows_sorted (b : BenchmarkTable) (hb : (b.map Prod.fst).Nodup) :
    List.Chain' (fun p q => p.1 ≤ q.1 ∧ (p.1 = q.1 → p.2.1 ≤ q.2.1)) (tableRows b) := by
  have hsorted : List.Sorted keyLe (sortedTable b) :=
    List.sorted_insertionSort keyLe _
  have hperm : List.Perm (sortedTable b)
      (b.map (fun p => (p.1, List.insertionSort keyLe p.2))) :=
    List.perm_insertionSort keyLe _
  have hfst : List.Perm ((sortedTable b).map Prod.fst) (b.map Prod.fst) := by
    have h1 := hperm.map Prod.fst
    have h2 : (b.map (fun p => (p.1, List.insertionSort keyLe p.2))).map Prod.fst =
        b.map Prod.fst := by
      rw [List.map_map]
      rfl
    exact h2 ▸ h1
  have hnd : ((sortedTable b).map Prod.fst).Nodup := hfst.nodup_iff.2 hb
  have hpair_ne : List.Pairwise
      (fun p q : String × List (String × BenchmarkRecord) => p.1 ≠ q.1) (sortedTable b) :=
    List.pairwise_map.1 hnd
  have hlt : List.Pairwise
      (fun p q : String × List (String × BenchmarkRecord) => p.1 < q.1) (sortedTable b) :=
    (hsorted.and hpair_ne).imp (fun hab => lt_of_le_of_ne hab.1 hab.2)
  have hins : ∀ p ∈ sortedTable b, List.Sorted keyLe p.2 := by
    intro p hp
    obtain ⟨q, _, hq⟩ := List.mem_map.1 (hperm.mem_iff.1 hp)
    rw [← hq]
    exact List.sorted_insertionSort keyLe q.2
  exact chain'_flatMap_expand _ hlt hins

/-- Witness for C2 on a two-group table given in unsorted insertion
order. -/
theorem rendered_rows_sorted_witness :
    ((([("b", [("x", ⟨1, 1⟩)]), ("a", [("y", ⟨1, 1⟩), ("x", ⟨1, 1⟩)])] :
        BenchmarkTable).map Prod.fst).Nodup) ∧
    List.Chain' (fun p q => p.1 ≤ q.1 ∧ (p.1 = q.1 → p.2.1 ≤ q.2.1))
      (tableRows [("b", [("x", ⟨1, 1⟩)]), ("a", [("y", ⟨1, 1⟩), ("x", ⟨1, 1⟩)])]) :=
  ⟨by decide, rendered_rows_sorted _ (by decide)⟩

/-- The discovery loop keeps exactly the walked directories whose base
name is `new`, each contributing its fixed file pair. -/
theorem benchFilesLoop_eq_filter (l : List String) :
    benchFilesLoop l = (l.filter (fun d => baseName d == "new")).map
      (fun d => (d ++ "/" ++ "benchmark.json", d ++ "/" ++ "estimates.json")) := by
  induction l with
  | nil => rfl
  | cons d rest ih =>
    by_cases h : baseName d = "new"
    · have hb : (baseName d == "new") = true := beq_iff_eq.mpr h
      rw [benchFilesLoop, if_pos h, List.filter_cons]
      simp [hb, ih]
    · have hb : (baseName d == "new") = false := beq_eq_false_iff_ne.mpr h
      rw [benchFilesLoop, if_neg h, List.filter_cons]
      simp [hb, ih]

/-- Claim C8 (amended).  Discovery yields exactly one
`(benchmark.json, estimates.json)` pair, formed by joining the fixed
filenames, for every walked directory whose base name is `new` —
whether or not it is a leaf — in walk order, and yields nothing for
directories with any other base name. -/
theorem benchmark_files_per_new_dir (root : String) (fsys : Option FSForest) :
    benchmark_files root fsys =
      ((osWalk root fsys).filter (fun d => baseName d == "new")).map
        (fun d => (d ++ "/" ++ "benchmark.json", d ++ "/" ++ "estimates.json")) :=
  benchFilesLoop_eq_filter _

/-- Counterexample to C8 as stated: in a tree where the directory
`new` has a subdirectory `sub` — so `new` is not a leaf — discovery
still yields the pair for `new`, contradicting the claim that no pair
is yielded for a directory that is not a leaf. -/
theorem benchmark_files_nonleaf_cex :
    benchmark_files "criterion" (some nonLeafFS) =
      [("criterion/new/benchmark.json", "criterion/new/estimates.json")] ∧
    "criterion/new/sub" ∈ osWalk "criterion" (some nonLeafFS) := by
  constructor
  · decide
  · decide

/-- A walk without any directory named `new` discovers nothing. -/
theorem benchFilesLoop_nil_of_no_new (l : List String)
    (h : ∀ d ∈ l, baseName d ≠ "new") : benchFilesLoop l = [] := by
  induction l with
  | nil => rfl
  | cons d rest ih =>
    rw [benchFilesLoop, if_neg (h d (List.mem_cons_self _ _))]
    exact ih (fun d hd => h d (List.mem_cons_of_mem _ hd))

/-- Claim C9.  When the results root does not exist (`fsys = none`) or
contains no directory named `new`, the run completes without error:
discovery yields the empty sequence and the written report is exactly
the title, the fixed descriptive paragraph, the column header row and
the alignment row, with zero data rows. -/
theorem empty_discovery_header_only (root : String) (fsys : Option FSForest)
    (readFile : String → Json)
    (h : ∀ d ∈ osWalk root fsys, baseName d ≠ "new") :
    benchmark_files root fsys = [] ∧
    mainRun root fsys readFile = .ok headerText := by
  have hb : benchmark_files root fsys = [] := benchFilesLoop_nil_of_no_new _ h
  refine ⟨hb, ?_⟩
  rw [mainRun, hb]
  show processBenchmarks [] = .ok headerText
  simp [processBenchmarks, processEntries, buildTable, print_benchmarks, rowStrings,
    tableRows, sortedTable, String.join]
  rfl

/-- Witness for C9: a nonexistent results root. -/
theorem empty_discovery_header_only_witness :
    (∀ d ∈ osWalk "criterion" none, baseName d ≠ "new") ∧
    (benchmark_files "criterion" none = [] ∧
      mainRun "criterion" none (fun _ => Json.null) = .ok headerText) :=
  ⟨by decide, empty_discovery_header_only "criterion" none (fun _ => Json.null) (by decide)⟩

/-- Rounding to tenths of a value that is already an integer returns
that integer. -/
theorem rhe_intCast (n : ℤ) : rhe ((n : ℤ) : ℚ) = n := by
  simp [rhe]

/-- The `%6.1f` rendering of the runtime `2.0`. -/
theorem fmt61f_two : fmt61f 2 = "   2.0" := by
  have h : rhe (10 * (2 : ℚ)) = 20 := by
    rw [show (10 * (2 : ℚ)) = ((20 : ℤ) : ℚ) by norm_num, rhe_intCast]
  rw [fmt61f, fmtCore, h]
  norm_num
  decide

/-- The `%6.1f` rendering of the throughput `500.0`. -/
theorem fmt61f_fivehundred : fmt61f 500 = " 500.0" := by
  have h : rhe (10 * (500 : ℚ)) = 5000 := by
    rw [show (10 * (500 : ℚ)) = ((5000 : ℤ) : ℚ) by norm_num, rhe_intCast]
  rw [fmt61f, fmtCore, h]
  norm_num
  decide

/-- The data row emitted for the end-to-end example record. -/
theorem rowString_sort :
    rowString "sort" "sort" { Runtime := 2, Throughput := 500 } =
      "sort | sort |    2.0 |  500.0" := by
  show mdEscape "sort" ++ " | " ++ mdEscape "sort" ++ " | " ++
    fmt61f 2 ++ " | " ++ fmt61f 500 = _
  rw [fmt61f_two, fmt61f_fivehundred]
  decide

/-- The single extracted entry of the end-to-end example. -/
theorem processPair_sort :
    processPair metaSort estSort = .ok ("sort", "sort", { Runtime := 2, Throughput := 500 }) := by
  have h0 : processPair metaSort estSort =
      .ok ("sort", "sort", { Runtime := 2, Throughput := 1000 / 2 }) := rfl
  rw [h0]
  norm_num

/-- Binding a successful `Except` computation applies the
continuation. -/
@[simp]
theorem except_ok_bind {ε α β : Type} (a : α) (f : α → Except ε β) :
    (Except.ok (ε := ε) a >>= f) = f a :=
  rfl

/-- The data rows of the table holding only the end-to-end example
entry. -/
theorem rowStrings_sort_table :
    rowStrings (buildTable [("sort", "sort", { Runtime := 2, Throughput := 500 })]) =
      ["sort | sort |    2.0 |  500.0"] := by
  show [rowString "sort" "sort" { Runtime := 2, Throughput := 500 }] = _
  rw [rowString_sort]

set_option maxRecDepth 8000

/-- Claim C7 (amended).  Given exactly one input pair whose metadata
has `group_id = "sort"` and no `function_id`, and whose estimates have
`Slope.point_estimate = 2.0`, the generated report consists of the
fixed header followed by the single data row
`sort | sort |    2.0 |  500.0` — the cell values 2.0 and 500.0 are
padded to width six by the `%6.1f` format. -/
theorem end_to_end_sort_example :
    processBenchmarks [(metaSort, estSort)] =
      .ok (headerText ++ "\nsort | sort |    2.0 |  500.0") ∧
    "sort | sort |    2.0 |  500.0" ∈
      rowStrings (buildTable [("sort", "sort", { Runtime := 2, Throughput := 500 })]) := by
  constructor
  · have hps : processBenchmarks [(metaSort, estSort)] =
        .ok (print_benchmarks (buildTable
          [("sort", "sort", { Runtime := 2, Throughput := 500 })])) := by
      simp [processBenchmarks, processEntries, processPair_sort]
    rw [hps]
    simp only [print_benchmarks]
    rw [rowStrings_sort_table]
    refine congrArg Except.ok ?_
    decide
  · rw [rowStrings_sort_table]
    decide

/-- Counterexample to C7 as stated: the single data row produced by
the end-to-end example input is the padded string
`sort | sort |    2.0 |  500.0`, so the unpadded row
`sort | sort | 2.0 | 500.0` claimed by the specification does not
occur in the generated table. -/
theorem end_to_end_sort_example_cex :
    processPair metaSort estSort =
      .ok ("sort", "sort", { Runtime := 2, Throughput := 500 }) ∧
    "sort | sort | 2.0 | 500.0" ∉
      rowStrings (buildTable [("sort", "sort", { Runtime := 2, Throughput := 500 })]) := by
  refine ⟨processPair_sort, ?_⟩
  rw [rowStrings_sort_table]
  decide

end ProcessBenchmarks
